import Mathlib

/-!
Verification of the enrichment orchestration pipeline.

The definitions below are a shallow embedding of the Python backend
(`app/services/ai_agent_service.py`, `app/services/pdl_service.py`,
`app/services/history_service.py`, `app/api/ai_enrichment.py`).
Pure Python functions become Lean functions; external effects (the OpenAI
completion call, the two HTTP providers, JSON parsing of provider text,
wall-clock time, and the possibility of an unanticipated runtime exception
inside a `try` block) are supplied as explicit oracle fields of an `Env`
record.  Python `dict` payloads with a statically known key set become
structures with `Option` fields (a missing key is `none`); Python string
truthiness is modelled explicitly (`None` and `""` are falsy).
-/

/-! ## Python string primitives -/

/-- Characters stripped by Python `str.strip()` (ASCII whitespace set). -/
def pyWs (c : Char) : Bool :=
  c = ' ' || c = '\t' || c = '\n' || c = '\r' || c = '\x0b' || c = '\x0c'

/-- Python `str.strip()` on a character list. -/
def pyStrip (cs : List Char) : List Char :=
  ((cs.dropWhile pyWs).reverse.dropWhile pyWs).reverse

/-- Split a character list at the first occurrence of `c`.
Returns `none` when `c` does not occur. -/
def splitAtChar (c : Char) : List Char → Option (List Char × List Char)
  | [] => none
  | x :: xs =>
    if x = c then some ([], xs)
    else
      match splitAtChar c xs with
      | none => none
      | some (l, r) => some (x :: l, r)

/-- Split a character list at the last occurrence of `c`. -/
def splitAtLast (c : Char) (cs : List Char) : Option (List Char × List Char) :=
  match splitAtChar c cs.reverse with
  | none => none
  | some (r, l) => some (l.reverse, r.reverse)

/-- Split a character list on every character satisfying `p`
(Python `re.split` style: empty pieces are kept). -/
def splitOnP (p : Char → Bool) : List Char → List (List Char)
  | [] => [[]]
  | x :: xs =>
    match splitOnP p xs with
    | [] => [[]]
    | h :: t => if p x then [] :: h :: t else (x :: h) :: t

/-- Split on a single separator character, Python `str.split(c)` style. -/
def splitOnChar (c : Char) : List Char → List (List Char)
  | [] => [[]]
  | x :: xs =>
    match splitOnChar c xs with
    | [] => [[]]
    | h :: t => if x = c then [] :: h :: t else (x :: h) :: t

/-- Join pieces with a separator character, inverse of `splitOnChar`. -/
def joinSep (c : Char) : List (List Char) → List Char
  | [] => []
  | [l] => l
  | l :: l' :: ls => l ++ c :: joinSep c (l' :: ls)

/-- Python `str.split(sep)` at the `String` level. -/
def splitStrOn (c : Char) (s : String) : List String :=
  (splitOnChar c s.data).map List.asString

/-- Python `str.split()` with no separator: split on whitespace runs,
dropping empty pieces. -/
def pySplitWs (s : String) : List String :=
  ((splitOnP pyWs s.data).filter (· ≠ [])).map List.asString

/-- Python `str.lower()` (ASCII behaviour). -/
def pyLowerS (s : String) : String :=
  List.asString (s.data.map Char.toLower)

/-- Python `str.capitalize()`: first character upper-cased, rest lower-cased. -/
def pyCapitalizeS (s : String) : String :=
  match s.data with
  | [] => ""
  | c :: rest => List.asString (Char.toUpper c :: rest.map Char.toLower)

/-- Python `str.strip()` at the `String` level. -/
def pyStripS (s : String) : String :=
  List.asString (pyStrip s.data)

/-- Python `str.isspace()`: nonempty and all whitespace. -/
def pyIsSpace (s : String) : Bool :=
  s.data ≠ [] && s.data.all pyWs

/-- Truthiness of a Python optional-string value: `None` and `""` are falsy. -/
def truthyOpt : Option String → Bool
  | none => false
  | some s => s ≠ ""

/-- Python `a or b` over optional-string values (falsy `a` selects `b`). -/
def pyOr (a b : Option String) : Option String :=
  match a with
  | none => b
  | some s => if s = "" then b else some s

/-! ## Input classifier (`AIAgentService.classify_input`)

The two regular expressions of the source are implemented as executable
recognizers over `List Char`:

`email_pattern = ^[a-zA-Z0-9._%+-]+@[a-zA-Z0-9.-]+\.[a-zA-Z]{2,}$`

`domain_pattern = ^[a-zA-Z0-9]([a-zA-Z0-9-]{0,61}[a-zA-Z0-9])?(\.[a-zA-Z0-9]([a-zA-Z0-9-]{0,61}[a-zA-Z0-9])?)*$`
-/

/-- ASCII letter, regex class `[a-zA-Z]`. -/
def isAsciiAlpha (c : Char) : Bool :=
  ('a' ≤ c && c ≤ 'z') || ('A' ≤ c && c ≤ 'Z')

/-- ASCII letter or digit, regex class `[a-zA-Z0-9]`. -/
def isAsciiAlnum (c : Char) : Bool :=
  isAsciiAlpha c || ('0' ≤ c && c ≤ '9')

/-- Regex class `[a-zA-Z0-9._%+-]` (email local part). -/
def isLocalChar (c : Char) : Bool :=
  isAsciiAlnum c || c = '.' || c = '_' || c = '%' || c = '+' || c = '-'

/-- Regex class `[a-zA-Z0-9.-]` (email domain part). -/
def isDomChar (c : Char) : Bool :=
  isAsciiAlnum c || c = '.' || c = '-'

/-- Regex class `[a-zA-Z0-9-]` (domain label interior). -/
def isLabelChar (c : Char) : Bool :=
  isAsciiAlnum c || c = '-'

/-- Recognizer for the email regex: a nonempty run of local characters,
`@`, a nonempty run of domain characters, a final dot, and a top-level
label of at least two letters.  The backtracking choice of the regex is
resolved by splitting at the first `@` (the local class excludes `@`)
and at the last `.` (the top-level class excludes `.`). -/
def emailMatchB (cs : List Char) : Bool :=
  match splitAtChar '@' cs with
  | none => false
  | some (l, d) =>
    match splitAtLast '.' d with
    | none => false
    | some (m, t) =>
      decide (l ≠ []) && l.all isLocalChar &&
      decide (m ≠ []) && m.all isDomChar &&
      decide (2 ≤ t.length) && t.all isAsciiAlpha

/-- Recognizer for one domain label:
`[a-zA-Z0-9]([a-zA-Z0-9-]{0,61}[a-zA-Z0-9])?`,
i.e. 1 to 63 characters, alphanumeric or hyphen, with alphanumeric
first and last character. -/
def labelOkB (l : List Char) : Bool :=
  decide (l ≠ []) && decide (l.length ≤ 63) && l.all isLabelChar &&
  (match l.head? with | some c => isAsciiAlnum c | none => false) &&
  (match l.getLast? with | some c => isAsciiAlnum c | none => false)

/-- Recognizer for the domain regex: dot-separated valid labels. -/
def domainMatchB (cs : List Char) : Bool :=
  (splitOnChar '.' cs).all labelOkB

/-- Input kinds (`InputType` enum of `models/ai_agent.py`). -/
inductive InputType where
  | natural_language
  | email
  | domain
deriving DecidableEq, Repr

/-- Model of `AIAgentService.classify_input`: email regex on the stripped input
first, then domain regex on the stripped input combined with a literal
dot in the original input, else natural language. -/
def classify_input (input_text : String) : InputType :=
  if emailMatchB (pyStrip input_text.data) then .email
  else if domainMatchB (pyStrip input_text.data) && decide ('.' ∈ input_text.data) then .domain
  else .natural_language

/-! Declarative grammars, following the specification's wording, used to
state the classifier claim as a refinement. -/

/-- Email grammar as the spec words it: local-part `@` domain-part with a
top-level label of at least two letters. -/
def EmailGrammar (cs : List Char) : Prop :=
  ∃ l m t : List Char,
    cs = l ++ '@' :: (m ++ '.' :: t) ∧
    l ≠ [] ∧ (∀ ch ∈ l, isLocalChar ch = true) ∧
    m ≠ [] ∧ (∀ ch ∈ m, isDomChar ch = true) ∧
    2 ≤ t.length ∧ (∀ ch ∈ t, isAsciiAlpha ch = true)

/-- One label of the spec's domain grammar: at most 63 characters,
alphanumeric-and-hyphen, no leading or trailing hyphen. -/
def LabelOk (l : List Char) : Prop :=
  l ≠ [] ∧ l.length ≤ 63 ∧ (∀ ch ∈ l, isLabelChar ch = true) ∧
  (∀ ch, l.head? = some ch → ch ≠ '-') ∧
  (∀ ch, l.getLast? = some ch → ch ≠ '-')

/-- Domain grammar as the spec words it: dot-separated valid labels. -/
def DomainGrammar (cs : List Char) : Prop :=
  ∃ ls : List (List Char), ls ≠ [] ∧ cs = joinSep '.' ls ∧ ∀ l ∈ ls, LabelOk l

/-! ## Data model (`models/ai_agent.py`) -/

/-- Model of `ExtractedData` pydantic model: structured intent extracted from a
natural-language query.  List fields default to `[]`, optional fields
to `None`. -/
structure ExtractedData where
  target_roles : List String := []
  industries : List String := []
  region : Option String := none
  company_size : Option String := none
  intent : Option String := none
  keywords : List String := []
  seniority_level : Option String := none
  department : Option String := none
deriving DecidableEq, Repr

/-- A raw provider record.  The Python code handles these as untyped
dicts; only the keys actually probed by the pipeline are modelled, each
as an `Option` field (`none` = key absent).  `some ""` models a key
present with an empty-string value. -/
structure RawRecord where
  email : Option String := none
  full_name : Option String := none
  name : Option String := none
  job_title : Option String := none
  title : Option String := none
  linkedin_profile : Option String := none
  company : Option String := none
  domain : Option String := none
  industry : Option String := none
  company_size : Option String := none
  location : Option String := none
deriving DecidableEq, Repr

/-- The `data` payload of an `AIEnrichmentResponse`: either the direct-path
marker dict `{"input": ..., "type": "fallback"}` or the natural-language
result dict `{"query", "extracted_data", "results", "total_results",
"sources_used"}`. -/
inductive EnrichData where
  | fallback (input : String) (typ : String)
  | aiResult (query : String) (extracted : ExtractedData) (results : List RawRecord)
      (total_results : Nat) (sources_used : List String)
deriving DecidableEq, Repr

/-- Model of `AIEnrichmentResponse` pydantic model.  `processing_time` is modelled
as an abstract `Nat` tick count. -/
structure AIEnrichmentResponse where
  success : Bool
  data : Option EnrichData := none
  error : Option String := none
  input_type : Option InputType := none
  extracted_data : Option ExtractedData := none
  sources : List String := []
  processing_time : Option Nat := none
deriving DecidableEq, Repr

/-- Model of `EnrichmentSource` pydantic model. -/
structure EnrichmentSource where
  name : String
  api_key : Option String := none
  base_url : String
  enabled : Bool := true
deriving DecidableEq, Repr

/-- Model of `EnrichmentConfig`: the source registry.  The Python dict is built
with exactly the four keys below, in this insertion order. -/
structure EnrichmentConfig where
  pdl : EnrichmentSource
  fullenrich : EnrichmentSource
  freckle : EnrichmentSource
  telescope : EnrichmentSource
  max_results_per_source : Nat := 10
  merge_strategy : String := "union"
deriving Repr

/-- Iteration order of `self.config.sources.items()`. -/
def sourcesItems (c : EnrichmentConfig) : List (String × EnrichmentSource) :=
  [("pdl", c.pdl), ("fullenrich", c.fullenrich), ("freckle", c.freckle), ("telescope", c.telescope)]

/-- Model of `AIAgentService._load_enrichment_config`, with `os.getenv` as an
oracle.  `bool(os.getenv(k))` is false for an unset or empty variable. -/
def load_enrichment_config (getenv : String → Option String) : EnrichmentConfig :=
  { pdl := { name := "People Data Labs", api_key := getenv "PDL_API_KEY",
             base_url := "https://api.peopledatalabs.com/v5",
             enabled := truthyOpt (getenv "PDL_API_KEY") },
    fullenrich := { name := "FullEnrich", api_key := getenv "FULLENRICH_API_KEY",
                    base_url := "https://api.fullenrich.com/v1",
                    enabled := truthyOpt (getenv "FULLENRICH_API_KEY") },
    freckle := { name := "Freckle", api_key := getenv "FRECKLE_API_KEY",
                 base_url := "https://api.freckle.io/v1",
                 enabled := truthyOpt (getenv "FRECKLE_API_KEY") },
    telescope := { name := "Telescope", api_key := getenv "TELESCOPE_API_KEY",
                   base_url := "https://api.telescope.ai/v1",
                   enabled := truthyOpt (getenv "TELESCOPE_API_KEY") } }

/-! ## Intent extractor (`AIAgentService.extract_data_from_natural_language`) -/

/-- Outcome of one JSON-recovery step applied to the completion text:
the step's regex found nothing, or found text whose `json.loads` /
`ExtractedData(**data)` raised, or produced a validated intent. -/
inductive ParseOutcome where
  | noMatch
  | failed
  | parsed (d : ExtractedData)

/-- The degraded fallback intent built in the `except` branch. -/
def fallbackExtracted (query : String) : ExtractedData :=
  { target_roles := ["executive"], industries := ["technology"],
    keywords := pySplitWs (pyLowerS query) }

/-- Model of `extract_data_from_natural_language`.  The OpenAI completion is the
`capability` oracle (`.error` = the call, or the lazy client property,
raised).  The three JSON-recovery steps (direct `json.loads`, fenced
```json block, first brace-delimited substring) are parse oracles.  A
fenced block or brace substring that is found but fails to parse raises
inside the `try`, landing in the same `except` fallback. -/
def extract_data_from_natural_language (query : String)
    (capability : Except String String)
    (parseDirectO parseFencedO parseBraceO : String → ParseOutcome) : ExtractedData :=
  match capability with
  | .error _ => fallbackExtracted query
  | .ok content =>
    match parseDirectO content with
    | .parsed d => d
    | _ =>
      match parseFencedO content with
      | .parsed d => d
      | .failed => fallbackExtracted query
      | .noMatch =>
        match parseBraceO content with
        | .parsed d => d
        | _ => fallbackExtracted query

/-! ## Source adapters -/

/-- The search parameters built by `enrich_from_pdl`. -/
structure PdlParams where
  api_key : Option String
  size : Nat
  job_title : Option String := none
  industry : Option String := none
  location : Option String := none
  keywords : Option String := none
deriving DecidableEq, Repr

/-- Parameter construction of `enrich_from_pdl` (Python truthiness on
each intent field). -/
def buildPdlParams (c : EnrichmentConfig) (d : ExtractedData) : PdlParams :=
  { api_key := c.pdl.api_key,
    size := c.max_results_per_source,
    job_title := if d.target_roles ≠ [] then some (String.intercalate " OR " d.target_roles) else none,
    industry := if d.industries ≠ [] then some (String.intercalate " OR " d.industries) else none,
    location := if truthyOpt d.region then d.region else none,
    keywords := if d.keywords ≠ [] then some (String.intercalate " " d.keywords) else none }

/-- The bulk request body built by `enrich_from_fullenrich`.  The
`hasattr` probes for `full_name` / `domain` / `company_domains` /
`company_name` are statically false on `ExtractedData`, so the name and
company fall through to their placeholders and the domain is recovered
by scanning keyword tokens. -/
structure FePayload where
  firstname : String
  lastname : String
  domain : String
  company_name : String
  name : String
deriving DecidableEq, Repr

/-- Domain recovery of `enrich_from_fullenrich`: first keyword containing
a dot (and not pure whitespace), else the placeholder. -/
def feDomain (d : ExtractedData) : String :=
  match d.keywords.find? (fun kw => kw.data.contains '.' && !pyIsSpace kw) with
  | some kw => kw
  | none => "unknown.com"

def buildFePayload (d : ExtractedData) : FePayload :=
  { firstname := "Unknown", lastname := "Unknown", domain := feDomain d,
    company_name := "Unknown", name := "Unknown Unknown at Unknown" }

/-- Environment of external effects for one request.  `Except` values
model remote calls that either raise (`.error`) or return; `interrupt`
injects an otherwise-unanticipated exception into the body of
`process_enrichment`'s `try`; `srcInterrupt` does the same inside the
per-source `try` of `enrich_from_other_sources`. -/
structure Env where
  config : EnrichmentConfig
  openaiKeyPresent : Bool
  capability : Except String String
  parseDirectO : String → ParseOutcome
  parseFencedO : String → ParseOutcome
  parseBraceO : String → ParseOutcome
  pdlHttp : PdlParams → Except String (Nat × List RawRecord)
  feHttp : FePayload → Except String (Nat × List RawRecord)
  srcInterrupt : String → Option String
  interrupt : Option String
  elapsed : Nat

/-- Model of `enrich_from_pdl`: empty on a disabled source, on a raised HTTP call,
or on a non-200 status; otherwise the response's `data` list. -/
def enrich_from_pdl (env : Env) (d : ExtractedData) : List RawRecord :=
  if env.config.pdl.enabled = false then []
  else
    match env.pdlHttp (buildPdlParams env.config d) with
    | .error _ => []
    | .ok (status, rs) => if status = 200 then rs else []

/-- Model of `enrich_from_fullenrich`: empty on a disabled source or absent/empty
key, on a raised HTTP call, or on a non-200 status; otherwise the
response's `contacts` list. -/
def enrich_from_fullenrich (env : Env) (d : ExtractedData) : List RawRecord :=
  if env.config.fullenrich.enabled = false ∨ truthyOpt env.config.fullenrich.api_key = false then []
  else
    match env.feHttp (buildFePayload d) with
    | .error _ => []
    | .ok (status, contacts) => if status ≠ 200 then [] else contacts

/-- One iteration of the `enrich_from_other_sources` loop: skip `pdl` and
disabled sources; a per-source exception (`srcInterrupt`) is swallowed by
`continue`; only `fullenrich` is dispatched, other names contribute
nothing. -/
def otherStep (env : Env) (d : ExtractedData)
    (acc : List RawRecord) (p : String × EnrichmentSource) : List RawRecord :=
  if p.1 = "pdl" ∨ p.2.enabled = false then acc
  else
    match env.srcInterrupt p.1 with
    | some _ => acc
    | none => if p.1 = "fullenrich" then acc ++ enrich_from_fullenrich env d else acc

/-- Model of `enrich_from_other_sources`: fold the loop over the registry. -/
def enrich_from_other_sources (env : Env) (d : ExtractedData) : List RawRecord :=
  (sourcesItems env.config).foldl (otherStep env d) []

/-! ## Merge (`AIAgentService.merge_results`) -/

/-- One iteration of the merge loops over state `(merged, seen_emails)`:
`if email and email not in seen_emails` — a missing or empty email is
skipped, a fresh email is appended to both. -/
def mergeStep (st : List RawRecord × List String) (r : RawRecord) :
    List RawRecord × List String :=
  match r.email with
  | none => st
  | some e => if e ≠ "" ∧ e ∉ st.2 then (st.1 ++ [r], st.2 ++ [e]) else st

/-- Model of `merge_results`: the two nested loops followed by `merged[:50]`. -/
def merge_results (all_results : List (List RawRecord)) : List RawRecord :=
  ((all_results.foldl (fun st src => src.foldl mergeStep st) ([], [])).1).take 50

/-- Reference recursion equivalent to the merge loops: keep a record the
first time a nonempty email value is seen, skip records whose email is
missing, empty, or already seen. -/
def keepFirstByEmail : List RawRecord → List String → List RawRecord
  | [], _ => []
  | r :: rs, seen =>
    match r.email with
    | none => keepFirstByEmail rs seen
    | some e =>
      if e ≠ "" ∧ e ∉ seen then r :: keepFirstByEmail rs (seen ++ [e])
      else keepFirstByEmail rs seen

/-- The `seen_emails` state after the merge loops, matching
`keepFirstByEmail`. -/
def seenAfter : List RawRecord → List String → List String
  | [], seen => seen
  | r :: rs, seen =>
    match r.email with
    | none => seenAfter rs seen
    | some e => if e ≠ "" ∧ e ∉ seen then seenAfter rs (seen ++ [e]) else seenAfter rs seen

/-! ## Orchestrator (`AIAgentService.process_enrichment`) -/

/-- The failed outcome built in the orchestrator's `except` branch. -/
def failedOutcome (e : String) (elapsed : Nat) : AIEnrichmentResponse :=
  { success := false, error := some e, processing_time := some elapsed }

/-- Model of `process_enrichment`.  A present `env.interrupt` models an
unanticipated exception somewhere inside the `try` body, which the outer
`except` converts to a failed outcome.  Otherwise: classify; if AI mode
is off or the kind is email/domain, return the fallback marker response;
else extract intent, fan out to the three adapters, keep the non-empty
result lists in order, merge, and package. -/
def process_enrichment (input_text : String) (use_ai_agent : Bool) (env : Env) :
    AIEnrichmentResponse :=
  match env.interrupt with
  | some e => failedOutcome e env.elapsed
  | none =>
    let input_type := classify_input input_text
    if use_ai_agent = false ∨ input_type = .email ∨ input_type = .domain then
      { success := true,
        input_type := some input_type,
        data := some (.fallback input_text "fallback"),
        sources := ["fallback"],
        processing_time := some env.elapsed }
    else
      let d := extract_data_from_natural_language input_text env.capability
        env.parseDirectO env.parseFencedO env.parseBraceO
      let pdl_results := enrich_from_pdl env d
      let all₁ := if pdl_results ≠ [] then [pdl_results] else []
      let sources₁ := if pdl_results ≠ [] then ["People Data Labs"] else []
      let fullenrich_results := enrich_from_fullenrich env d
      let all₂ := if fullenrich_results ≠ [] then all₁ ++ [fullenrich_results] else all₁
      let sources₂ := if fullenrich_results ≠ [] then sources₁ ++ ["FullEnrich"] else sources₁
      let other_results := enrich_from_other_sources env d
      let all₃ := if other_results ≠ [] then all₂ ++ [other_results] else all₂
      let merged := merge_results all₃
      { success := true,
        data := some (.aiResult input_text d merged merged.length sources₂),
        input_type := some input_type,
        extracted_data := some d,
        sources := sources₂,
        processing_time := some env.elapsed }

/-! ## PDL direct-lookup service (`pdl_service.py`) -/

/-- Person payload of `PDLService` responses (the keys produced by
`_get_mock_person_data`, plus the extra keys `_parse_pdl_person_response`
can emit). -/
structure PdlPerson where
  full_name : Option String := none
  job_title : Option String := none
  email : Option String := none
  linkedin_profile : Option String := none
  company : Option String := none
  location : Option String := none
  skills : Option (List String) := none
deriving DecidableEq, Repr

/-- Company payload of `PDLService` responses. -/
structure PdlCompany where
  name : Option String := none
  domain : Option String := none
  size : Option String := none
  location : Option String := none
  industry : Option String := none
  website : Option String := none
deriving DecidableEq, Repr

/-- The `{"person": ..., "company": ...}` dict returned by the enrichment
methods of `PDLService`. -/
structure PersonCompany where
  person : Option PdlPerson := none
  company : Option PdlCompany := none
deriving DecidableEq, Repr

/-- Model of `PDLService._get_mock_person_data`: deterministic mock person/company
derived from the email's local part and domain.  The Python indexing
`email.split('@')[1]` assumes an `@` is present (callers guarantee it);
an absent piece is modelled as `""`. -/
def get_mock_person_data (email : String) : PersonCompany :=
  let at_parts := splitStrOn '@' email
  let name_parts := splitStrOn '.' (at_parts.headD "")
  let first_name := pyCapitalizeS (name_parts.headD "")
  let last_name := if 1 < name_parts.length then pyCapitalizeS (name_parts.getD 1 "") else "Doe"
  let dom := at_parts.getD 1 ""
  { person := some
      { full_name := some (first_name ++ " " ++ last_name),
        job_title := some "Software Engineer",
        email := some email,
        linkedin_profile := some ("https://linkedin.com/in/" ++ pyLowerS first_name ++ pyLowerS last_name),
        company := some "Example Corp" },
    company := some
      { name := some "Example Corp",
        domain := some dom,
        size := some "50-100 employees",
        location := some "San Francisco, CA",
        industry := some "Technology",
        website := some ("https://" ++ dom) } }

/-- Model of `PDLService._get_mock_company_data`. -/
def get_mock_company_data (dom : String) : PersonCompany :=
  let company_name := pyCapitalizeS ((splitStrOn '.' dom).headD "") ++ " Corp"
  { company := some
      { name := some company_name,
        domain := some dom,
        size := some "100-500 employees",
        location := some "New York, NY",
        industry := some "Technology",
        website := some ("https://" ++ dom) } }

/-- Outcome of one live PDL client call: the HTTP status code, the body's
`status` field, and the parsed payload of `body['data']` (`none` when the
key is absent or falsy).  Parsing by `_parse_pdl_person_response` is
folded into the oracle's payload. -/
structure PdlApiResp where
  status_code : Nat
  body_status : Nat
  data : Option PersonCompany
deriving Repr

/-- Model of `PDLService.enrich_email`: with no client (no key / no SDK / client
construction failed), with a raised call, or with a non-success response,
fall back to the deterministic mock; otherwise return the parsed data. -/
def enrich_email (client : Option (Except String PdlApiResp)) (email : String) : PersonCompany :=
  match client with
  | none => get_mock_person_data email
  | some (.error _) => get_mock_person_data email
  | some (.ok r) =>
    if r.status_code = 200 ∧ r.body_status = 200 ∧ r.data ≠ none then
      match r.data with
      | some pc => pc
      | none => get_mock_person_data email
    else get_mock_person_data email

/-- Model of `PDLService.enrich_domain`, same shape as `enrich_email`. -/
def enrich_domain (client : Option (Except String PdlApiResp)) (dom : String) : PersonCompany :=
  match client with
  | none => get_mock_company_data dom
  | some (.error _) => get_mock_company_data dom
  | some (.ok r) =>
    if r.status_code = 200 ∧ r.body_status = 200 ∧ r.data ≠ none then
      match r.data with
      | some pc => pc
      | none => get_mock_company_data dom
    else get_mock_company_data dom

/-- Model of `clean_string_value` (nested helper of the two `_parse_pdl_*`
functions of `pdl_service.py`) operates on an untyped scalar. -/
inductive PyVal where
  | pynone
  | pybool (b : Bool)
  | pystr (s : String)
  | pyint (n : Int)
deriving DecidableEq, Repr

/-- Python truthiness of the modelled scalars. -/
def pyTruthy : PyVal → Bool
  | .pynone => false
  | .pybool b => b
  | .pystr s => s ≠ ""
  | .pyint n => n ≠ 0

/-- Python `str(...)` of the modelled scalars. -/
def pyStrOf : PyVal → String
  | .pynone => "None"
  | .pybool b => if b then "True" else "False"
  | .pystr s => s
  | .pyint n => toString n

/-- Model of `clean_string_value`: `None`/`False`/`True` become `None`; a string
becomes its strip, or `None` when the strip is empty; any other value is
`str(value) if value else None`. -/
def clean_string_value (v : PyVal) : Option String :=
  match v with
  | .pynone => none
  | .pybool _ => none
  | .pystr s => if pyStripS s = "" then none else some (pyStripS s)
  | v => if pyTruthy v then some (pyStrOf v) else none

/-! ## History ledger (`history_service.py`) -/

/-- The capacity bound `self._max_history_size`. -/
def max_history_size : Nat := 100

/-- The person slot of a history item written by the AI endpoint: either
the contact dict built from the first merged record, or the minimal
`{"input": ...}` marker stored on the direct path. -/
inductive PersonHist where
  | contact (full_name job_title email linkedin_profile company location : Option String)
  | inputMarker (input : String)
deriving DecidableEq, Repr

/-- The company slot of a history item written by the AI endpoint. -/
structure CompanyHist where
  name : Option String := none
  domain : Option String := none
  industry : Option String := none
  size : Option String := none
  location : Option String := none
deriving DecidableEq, Repr

/-- One history item dict. -/
structure HistoryEntry where
  id : String
  input_data : String
  person : Option PersonHist := none
  company : Option CompanyHist := none
  timestamp : Nat
deriving DecidableEq, Repr

/-- Model of `HistoryService.add_to_history`: build the item, insert at the head,
then truncate to the leading `max_history_size` entries when the bound is
exceeded. -/
def add_to_history (id : String) (input_data : String)
    (person_data : Option PersonHist) (company_data : Option CompanyHist)
    (now : Nat) (history : List HistoryEntry) : List HistoryEntry :=
  let history' := { id := id, input_data := input_data, person := person_data,
                    company := company_data, timestamp := now } :: history
  if history'.length > max_history_size then history'.take max_history_size else history'

/-- Model of `HistoryService.get_history`: all items for `limit=None`, else the
Python slice `self._history[:limit]` (negative limits follow Python
slice semantics). -/
def get_history (limit : Option Int) (history : List HistoryEntry) : List HistoryEntry :=
  match limit with
  | none => history
  | some n => if 0 ≤ n then history.take n.toNat else history.take (history.length - (-n).toNat)

/-- Model of `HistoryService.get_history_count`. -/
def get_history_count (history : List HistoryEntry) : Nat :=
  history.length

/-- Model of `HistoryService.clear_history`. -/
def clear_history (_history : List HistoryEntry) : List HistoryEntry :=
  []

/-- Model of `HistoryService.search_history`: case-insensitive substring match on
each item's original input, preserving ledger order. -/
def search_history (query : String) (history : List HistoryEntry) : List HistoryEntry :=
  history.filter (fun item => decide (List.IsInfix (pyLowerS query).data (pyLowerS item.input_data).data))

/-- Insert a whole batch, oldest first (a sequence of
`add_to_history` calls). -/
def addEntries (es : List HistoryEntry) (history : List HistoryEntry) : List HistoryEntry :=
  es.foldl (fun acc e => add_to_history e.id e.input_data e.person e.company e.timestamp acc) history

/-! ## AI enrichment endpoint (`api/ai_enrichment.py`) -/

/-- The HTTP error shape raised by the endpoint. -/
structure HttpErr where
  status : Nat
  detail : String
deriving DecidableEq, Repr

/-- History derivation of `ai_enrich`: for an AI result with a non-empty
`results` list, the person dict is built from the first record (with the
`or`-chains of alternate field names) and the company dict only when the
first record's `company` is truthy; for the direct-path marker payload,
the minimal `{"input": ...}` person; an AI result with an empty list
stores neither. -/
def derivePerson (data : EnrichData) : Option PersonHist × Option CompanyHist :=
  match data with
  | .aiResult _ _ [] _ _ => (none, none)
  | .aiResult _ _ (r :: _) _ _ =>
    (some (.contact (pyOr r.full_name r.name) (pyOr r.job_title r.title)
        r.email r.linkedin_profile r.company r.location),
     if truthyOpt r.company then
       some { name := r.company, domain := r.domain, industry := r.industry,
              size := r.company_size, location := r.location }
     else none)
  | .fallback input _ => (some (.inputMarker input), none)

/-- Model of `ai_enrich`: reject AI mode without an OpenAI key with HTTP 400, run
the orchestrator, and on a successful outcome with a (necessarily
non-empty dict) payload record exactly one history item before returning
the outcome. -/
def ai_enrich (input : String) (use_ai_agent : Bool) (env : Env)
    (history : List HistoryEntry) (history_id : String) (now : Nat) :
    Except HttpErr (AIEnrichmentResponse × List HistoryEntry) :=
  if use_ai_agent = true ∧ env.openaiKeyPresent = false then
    .error { status := 400,
             detail := "AI Agent mode requires OPENAI_API_KEY to be set in environment variables" }
  else
    let response := process_enrichment input use_ai_agent env
    if response.success = true ∧ response.data ≠ none then
      match response.data with
      | some d =>
        let pc := derivePerson d
        .ok (response, add_to_history history_id input pc.1 pc.2 now history)
      | none => .ok (response, history)
    else .ok (response, history)

/-- The person record carried by an outcome's payload, if any: the first
merged record of an AI result; the direct-path marker payload carries
none. -/
def dataPerson : Option EnrichData → Option RawRecord
  | some (.aiResult _ _ results _ _) => results.head?
  | _ => none

/-- The contact email carried by the head entry of an endpoint result's
ledger, when that entry's person slot is a contact record; the minimal
`{"input": ...}` marker stored on the direct path carries none. -/
def storedHeadContactEmail :
    Except HttpErr (AIEnrichmentResponse × List HistoryEntry) → Option String
  | .ok (_, entry :: _) =>
    match entry.person with
    | some (.contact _ _ em _ _ _) => em
    | _ => none
  | _ => none

/-! ## Concrete environments used for evaluation -/

/-- A process environment with no credentials configured: every source
disabled, the language capability raising, every remote call raising. -/
def envNoCreds : Env :=
  { config := load_enrichment_config (fun _ => none),
    openaiKeyPresent := false,
    capability := .error "OPENAI_API_KEY environment variable is not set",
    parseDirectO := fun _ => .noMatch,
    parseFencedO := fun _ => .noMatch,
    parseBraceO := fun _ => .noMatch,
    pdlHttp := fun _ => .error "connection refused",
    feHttp := fun _ => .error "connection refused",
    srcInterrupt := fun _ => none,
    interrupt := none,
    elapsed := 0 }

/-- Model of `envNoCreds` with an unanticipated exception injected into the
orchestrator's `try` body. -/
def envBoom : Env :=
  { envNoCreds with interrupt := some "boom", elapsed := 7 }

/-! ## Concrete data used in evaluations -/

/-- Eighty records with pairwise-distinct nonempty emails. -/
def w80 : List RawRecord :=
  (List.range 80).map (fun i => { email := some (Nat.repr i) })

/-- A history entry with a given timestamp, used to populate ledgers. -/
def entMk (i : Nat) : HistoryEntry :=
  { id := Nat.repr i, input_data := "q", person := none, company := none, timestamp := i }

/-- A batch of 105 pairwise-distinct history entries, oldest first. -/
def es105 : List HistoryEntry :=
  (List.range 105).map entMk

/-- A three-entry ledger, newest first. -/
def hist3 : List HistoryEntry :=
  [entMk 2, entMk 1, entMk 0]

/-! ## Helper lemmas: splitting -/

theorem splitAtChar_sound {c : Char} :
    ∀ {cs l r : List Char}, splitAtChar c cs = some (l, r) →
      cs = l ++ c :: r ∧ c ∉ l := by
  intro cs
  induction cs with
  | nil => intro l r h; simp [splitAtChar] at h
  | cons x xs ih =>
    intro l r h
    by_cases hx : x = c
    · simp [splitAtChar, hx] at h
      obtain ⟨hl, hr⟩ := h
      subst hl; subst hr; subst hx
      simp
    · simp [splitAtChar, hx] at h
      rcases hsp : splitAtChar c xs with _ | ⟨l', r'⟩
      · rw [hsp] at h; simp at h
      · rw [hsp] at h
        simp at h
        obtain ⟨hl, hr⟩ := h
        obtain ⟨hcs, hnot⟩ := ih hsp
        subst hl; subst hr
        constructor
        · simp [hcs]
        · simp [hnot]
          exact fun he => hx he.symm

theorem splitAtChar_complete {c : Char} :
    ∀ {l : List Char} (r : List Char), c ∉ l →
      splitAtChar c (l ++ c :: r) = some (l, r) := by
  intro l
  induction l with
  | nil => intro r _; simp [splitAtChar]
  | cons x xs ih =>
    intro r hn
    have hx : ¬ x = c := by
      intro h; exact hn (by simp [h])
    have hxs : c ∉ xs := fun h => hn (List.mem_cons_of_mem _ h)
    have ih' := ih r hxs
    simp only [List.cons_append, splitAtChar, if_neg hx]
    rw [List.append_eq, ih']

theorem splitAtLast_sound {c : Char} {cs m t : List Char}
    (h : splitAtLast c cs = some (m, t)) : cs = m ++ c :: t ∧ c ∉ t := by
  unfold splitAtLast at h
  rcases hsp : splitAtChar c cs.reverse with _ | ⟨r1, r2⟩
  · rw [hsp] at h; simp at h
  · rw [hsp] at h
    simp at h
    obtain ⟨hm, ht⟩ := h
    obtain ⟨hrev, hnot⟩ := splitAtChar_sound hsp
    subst hm; subst ht
    constructor
    · have := congrArg List.reverse hrev
      simpa [List.reverse_append] using this
    · simp [hnot]

theorem splitAtLast_complete {c : Char} (m : List Char) {t : List Char} (hn : c ∉ t) :
    splitAtLast c (m ++ c :: t) = some (m, t) := by
  unfold splitAtLast
  have hrev : (m ++ c :: t).reverse = t.reverse ++ c :: m.reverse := by
    simp [List.reverse_append]
  have hnt : c ∉ t.reverse := by simpa using hn
  rw [hrev, splitAtChar_complete m.reverse hnt]
  simp

theorem splitOnChar_ne_nil {c : Char} (cs : List Char) : splitOnChar c cs ≠ [] := by
  induction cs with
  | nil => simp [splitOnChar]
  | cons x xs ih =>
    rcases h : splitOnChar c xs with _ | ⟨h', t⟩
    · exact absurd h ih
    · by_cases hx : x = c <;> simp [splitOnChar, h, hx]

theorem joinSep_splitOnChar {c : Char} (cs : List Char) :
    joinSep c (splitOnChar c cs) = cs := by
  induction cs with
  | nil => simp [splitOnChar, joinSep]
  | cons x xs ih =>
    rcases h : splitOnChar c xs with _ | ⟨h', t⟩
    · exact absurd h (splitOnChar_ne_nil xs)
    · rw [h] at ih
      by_cases hx : x = c
      · subst hx
        simp only [splitOnChar, h, if_pos rfl, joinSep]
        rw [ih]
        simp
      · simp only [splitOnChar, h, if_neg hx]
        cases t with
        | nil =>
          simp only [joinSep] at ih ⊢
          rw [ih]
        | cons t0 ts =>
          simp only [joinSep] at ih ⊢
          rw [List.cons_append, ih]

theorem splitOnChar_not_mem {c : Char} :
    ∀ {cs l : List Char}, l ∈ splitOnChar c cs → c ∉ l := by
  intro cs
  induction cs with
  | nil => intro l h; simp [splitOnChar] at h; simp [h]
  | cons x xs ih =>
    intro l h
    rcases hs : splitOnChar c xs with _ | ⟨h', t⟩
    · exact absurd hs (splitOnChar_ne_nil xs)
    · rw [show splitOnChar c (x :: xs) = match splitOnChar c xs with
        | [] => [[]]
        | h :: t => if x = c then [] :: h :: t else (x :: h) :: t from rfl, hs] at h
      dsimp only at h
      by_cases hx : x = c
      · rw [if_pos hx] at h
        rcases List.mem_cons.mp h with h | h
        · simp [h]
        · exact ih (by rw [hs]; exact h)
      · rw [if_neg hx] at h
        rcases List.mem_cons.mp h with h | h
        · subst h
          intro hc
          rcases List.mem_cons.mp hc with hc | hc
          · exact hx hc.symm
          · exact ih (by rw [hs]; exact List.mem_cons_self _ _) hc
        · exact ih (by rw [hs]; exact List.mem_cons_of_mem _ h)

theorem splitOnChar_of_not_mem {c : Char} {l : List Char} (hn : c ∉ l) :
    splitOnChar c l = [l] := by
  induction l with
  | nil => simp [splitOnChar]
  | cons x xs ih =>
    have hx : ¬ x = c := fun h => hn (by simp [h])
    have hxs : c ∉ xs := fun h => hn (List.mem_cons_of_mem _ h)
    rw [show splitOnChar c (x :: xs) = match splitOnChar c xs with
      | [] => [[]]
      | h :: t => if x = c then [] :: h :: t else (x :: h) :: t from rfl, ih hxs]
    simp [hx]

theorem splitOnChar_append {c : Char} {l : List Char} (rest : List Char) (hn : c ∉ l) :
    splitOnChar c (l ++ c :: rest) = l :: splitOnChar c rest := by
  induction l with
  | nil =>
    rcases h : splitOnChar c rest with _ | ⟨h', t⟩
    · exact absurd h (splitOnChar_ne_nil rest)
    · simp [List.nil_append, splitOnChar, h]
  | cons x xs ih =>
    have hx : ¬ x = c := fun h => hn (by simp [h])
    have hxs : c ∉ xs := fun h => hn (List.mem_cons_of_mem _ h)
    have ih' := ih hxs
    rw [List.cons_append,
      show splitOnChar c (x :: (xs ++ c :: rest)) = match splitOnChar c (xs ++ c :: rest) with
        | [] => [[]]
        | h :: t => if x = c then [] :: h :: t else (x :: h) :: t from rfl, ih']
    simp [hx]

theorem splitOnChar_joinSep {c : Char} :
    ∀ {ls : List (List Char)}, ls ≠ [] → (∀ l ∈ ls, c ∉ l) →
      splitOnChar c (joinSep c ls) = ls := by
  intro ls
  induction ls with
  | nil => intro h; exact absurd rfl h
  | cons l ls ih =>
    intro _ hall
    cases ls with
    | nil =>
      simp only [joinSep]
      exact splitOnChar_of_not_mem (hall l (by simp))
    | cons l' ls' =>
      simp only [joinSep]
      rw [splitOnChar_append _ (hall l (by simp))]
      rw [ih (by simp) (fun x hx => hall x (List.mem_cons_of_mem _ hx))]

/-! ## Helper lemmas: grammar equivalences -/

theorem head?_exists_mem {l : List Char} (h : l ≠ []) :
    ∃ ch, l.head? = some ch ∧ ch ∈ l := by
  cases l with
  | nil => exact absurd rfl h
  | cons a as => exact ⟨a, rfl, by simp⟩

theorem getLast?_exists_mem : ∀ {l : List Char}, l ≠ [] →
    ∃ ch, l.getLast? = some ch ∧ ch ∈ l := by
  intro l
  induction l with
  | nil => intro h; exact absurd rfl h
  | cons a as ih =>
    intro _
    cases as with
    | nil => exact ⟨a, rfl, by simp⟩
    | cons b bs =>
      obtain ⟨ch, hch, hmem⟩ := ih (by simp)
      refine ⟨ch, ?_, List.mem_cons_of_mem _ hmem⟩
      rw [List.getLast?_cons_cons]
      exact hch

theorem emailMatchB_iff (cs : List Char) : emailMatchB cs = true ↔ EmailGrammar cs := by
  constructor
  · intro h
    unfold emailMatchB at h
    rcases h1 : splitAtChar '@' cs with _ | ⟨l, d⟩
    · rw [h1] at h; simp at h
    · rw [h1] at h
      dsimp only at h
      rcases h2 : splitAtLast '.' d with _ | ⟨m, t⟩
      · rw [h2] at h; simp at h
      · rw [h2] at h
        dsimp only at h
        simp only [Bool.and_eq_true, decide_eq_true_eq, List.all_eq_true] at h
        obtain ⟨⟨⟨⟨⟨hl, hla⟩, hm⟩, hma⟩, ht⟩, hta⟩ := h
        obtain ⟨hcs, -⟩ := splitAtChar_sound h1
        obtain ⟨hd, -⟩ := splitAtLast_sound h2
        exact ⟨l, m, t, by rw [hcs, hd], hl, hla, hm, hma, ht, hta⟩
  · rintro ⟨l, m, t, hcs, hl, hla, hm, hma, ht, hta⟩
    have hnl : '@' ∉ l := fun hmem => absurd (hla '@' hmem) (by decide)
    have hnt : '.' ∉ t := fun hmem => absurd (hta '.' hmem) (by decide)
    subst hcs
    unfold emailMatchB
    rw [splitAtChar_complete (m ++ '.' :: t) hnl]
    dsimp only
    rw [splitAtLast_complete m hnt]
    dsimp only
    simp only [Bool.and_eq_true, decide_eq_true_eq, List.all_eq_true]
    exact ⟨⟨⟨⟨⟨hl, hla⟩, hm⟩, hma⟩, ht⟩, hta⟩

theorem labelOkB_iff (l : List Char) : labelOkB l = true ↔ LabelOk l := by
  constructor
  · intro h
    unfold labelOkB at h
    simp only [Bool.and_eq_true, decide_eq_true_eq, List.all_eq_true] at h
    obtain ⟨⟨⟨⟨hne, hlen⟩, hall⟩, hhd⟩, hlast⟩ := h
    refine ⟨hne, hlen, hall, ?_, ?_⟩
    · intro ch hch hd
      subst hd
      rw [hch] at hhd
      exact absurd hhd (by decide)
    · intro ch hch hd
      subst hd
      rw [hch] at hlast
      exact absurd hlast (by decide)
  · rintro ⟨hne, hlen, hall, hhd, hlast⟩
    unfold labelOkB
    simp only [Bool.and_eq_true, decide_eq_true_eq, List.all_eq_true]
    obtain ⟨c1, hc1, hm1⟩ := head?_exists_mem hne
    obtain ⟨c2, hc2, hm2⟩ := getLast?_exists_mem hne
    refine ⟨⟨⟨⟨hne, hlen⟩, hall⟩, ?_⟩, ?_⟩
    · rw [hc1]
      have h1 := hall c1 hm1
      unfold isLabelChar at h1
      simp only [Bool.or_eq_true, decide_eq_true_eq] at h1
      rcases h1 with h1 | h1
      · exact h1
      · exact absurd h1 (hhd c1 hc1)
    · rw [hc2]
      have h2 := hall c2 hm2
      unfold isLabelChar at h2
      simp only [Bool.or_eq_true, decide_eq_true_eq] at h2
      rcases h2 with h2 | h2
      · exact h2
      · exact absurd h2 (hlast c2 hc2)

theorem domainMatchB_iff (cs : List Char) : domainMatchB cs = true ↔ DomainGrammar cs := by
  constructor
  · intro h
    unfold domainMatchB at h
    rw [List.all_eq_true] at h
    refine ⟨splitOnChar '.' cs, splitOnChar_ne_nil cs, (joinSep_splitOnChar cs).symm, ?_⟩
    intro l hl
    exact (labelOkB_iff l).mp (h l hl)
  · rintro ⟨ls, hne, hcs, hall⟩
    have hnd : ∀ l ∈ ls, '.' ∉ l := by
      intro l hl hdot
      have := (hall l hl).2.2.1 '.' hdot
      simp [isLabelChar, isAsciiAlnum, isAsciiAlpha] at this
    subst hcs
    unfold domainMatchB
    rw [splitOnChar_joinSep hne hnd, List.all_eq_true]
    intro l hl
    exact (labelOkB_iff l).mpr (hall l hl)

/-! ## Helper lemmas: merge -/

theorem foldl_mergeStep :
    ∀ (l : List RawRecord) (m : List RawRecord) (s : List String),
      l.foldl mergeStep (m, s) = (m ++ keepFirstByEmail l s, seenAfter l s) := by
  intro l
  induction l with
  | nil => intro m s; simp [keepFirstByEmail, seenAfter]
  | cons r rs ih =>
    intro m s
    rcases he : r.email with _ | e
    · simp only [List.foldl_cons, mergeStep, he, keepFirstByEmail, seenAfter]
      exact ih m s
    · by_cases hc : e ≠ "" ∧ e ∉ s
      · simp only [List.foldl_cons, mergeStep, he, if_pos hc, keepFirstByEmail, seenAfter]
        rw [ih (m ++ [r]) (s ++ [e])]
        simp
      · simp only [List.foldl_cons, mergeStep, he, if_neg hc, keepFirstByEmail, seenAfter]
        exact ih m s

theorem merge_results_eq_keepFirst (all_results : List (List RawRecord)) :
    merge_results all_results = (keepFirstByEmail all_results.flatten []).take 50 := by
  unfold merge_results
  rw [← List.foldl_flatten mergeStep ([], []) all_results, foldl_mergeStep]
  simp

theorem keepFirstByEmail_all_kept :
    ∀ (l : List RawRecord) (s : List String),
      (∀ r ∈ l, r.email ≠ none ∧ r.email ≠ some "") →
      (l.map (fun r => r.email)).Nodup →
      (∀ r ∈ l, ∀ e, r.email = some e → e ∉ s) →
      keepFirstByEmail l s = l := by
  intro l
  induction l with
  | nil => intro s _ _ _; simp [keepFirstByEmail]
  | cons r rs ih =>
    intro s hne hnd hns
    have hnd2 : (∀ x ∈ rs, ¬ x.email = r.email) ∧ (List.map (fun r => r.email) rs).Nodup := by
      simpa using hnd
    rcases he : r.email with _ | e
    · exact absurd he ((hne r (by simp)).1)
    · have hee : e ≠ "" := fun h => (hne r (by simp)).2 (h ▸ he)
      have hes : e ∉ s := hns r (by simp) e he
      unfold keepFirstByEmail
      rw [he]
      dsimp only
      rw [if_pos (And.intro hee hes)]
      congr 1
      apply ih
      · exact fun r' hr' => hne r' (List.mem_cons_of_mem _ hr')
      · exact hnd2.2
      · intro r' hr' e' he' hmem
        rcases List.mem_append.mp hmem with hmem | hmem
        · exact hns r' (List.mem_cons_of_mem _ hr') e' he' hmem
        · have hee' : e' = e := by simpa using hmem
          exact (hnd2.1 r' hr') (by rw [he', he, hee'])

/-! ## Helper lemmas: history ledger -/

theorem add_to_history_eq (id input_data : String) (p : Option PersonHist)
    (c : Option CompanyHist) (now : Nat) (h : List HistoryEntry) :
    add_to_history id input_data p c now h =
      (({ id := id, input_data := input_data, person := p, company := c,
          timestamp := now } : HistoryEntry) :: h).take max_history_size := by
  simp only [add_to_history]
  split
  · rfl
  · next hlen => rw [List.take_of_length_le (by omega)]

theorem add_to_history_length_le (id input_data : String) (p : Option PersonHist)
    (c : Option CompanyHist) (now : Nat) (h : List HistoryEntry) :
    (add_to_history id input_data p c now h).length ≤ max_history_size := by
  rw [add_to_history_eq]
  simp only [List.length_take]
  omega

theorem take_append_take (l m : List HistoryEntry) (n : Nat) :
    (l ++ m.take n).take n = (l ++ m).take n := by
  rw [List.take_append_eq_append_take, List.take_append_eq_append_take, List.take_take]
  congr 2
  omega

theorem addEntries_eq :
    ∀ (es h : List HistoryEntry), h.length ≤ max_history_size →
      addEntries es h = (es.reverse ++ h).take max_history_size := by
  intro es
  induction es with
  | nil =>
    intro h hle
    unfold addEntries
    simp [List.take_of_length_le hle]
  | cons e es ih =>
    intro h hle
    obtain ⟨eid, ein, ep, ec, ets⟩ := e
    show addEntries es (add_to_history eid ein ep ec ets h) = _
    rw [ih _ (add_to_history_length_le _ _ _ _ _ _), add_to_history_eq, take_append_take]
    simp [List.append_assoc]

/-! ## Helper lemmas: orchestrator shape -/

theorem process_no_interrupt_shape (input_text : String) (u : Bool) (env : Env)
    (h : env.interrupt = none) :
    (process_enrichment input_text u env).success = true ∧
    ∃ d, (process_enrichment input_text u env).data = some d := by
  unfold process_enrichment
  rw [h]
  dsimp only
  split
  · exact ⟨rfl, _, rfl⟩
  · exact ⟨rfl, _, rfl⟩

/-! ## Claim theorems -/

/-- C9 counterexample: the claim says every non-string, non-boolean,
non-None scalar is stringified, but the code's `str(value) if value else
None` sends the falsy integer `0` to `None` instead of `"0"`. -/
theorem impl_clean_scalar_cex :
    clean_string_value (.pyint 0) = none ∧ clean_string_value (.pyint 0) ≠ some "0" := by
  constructor <;> decide

/-- C9 (amended): `None` and booleans become `None`; strings are stripped
with an empty strip becoming `None`; any other scalar is stringified when
truthy and becomes `None` when falsy (so `0` is absent, not `"0"`). -/
theorem spec_clean_scalar_amended (b : Bool) (s : String) (n : Int) :
    clean_string_value .pynone = none ∧
    clean_string_value (.pybool b) = none ∧
    clean_string_value (.pystr s) = (if pyStripS s = "" then none else some (pyStripS s)) ∧
    clean_string_value (.pyint n) = (if n = 0 then none else some (toString n)) := by
  refine ⟨rfl, rfl, rfl, ?_⟩
  by_cases h : n = 0 <;> simp [clean_string_value, pyTruthy, pyStrOf, h]

/-- C10: `get_history` does not validate its limit — a negative limit `n`
follows Python slice semantics on the newest-first ledger, returning all
entries except the `|n|` oldest, hence the empty list whenever
`|n| ≥ count`. -/
theorem impl_get_history_negative_limit (h : List HistoryEntry) (n : Int) (hn : n < 0) :
    get_history (some n) h = h.take (h.length - n.natAbs) ∧
    get_history (some n) h ++ h.drop (h.length - n.natAbs) = h ∧
    (h.length ≤ n.natAbs → get_history (some n) h = []) ∧
    (n.natAbs < h.length → (get_history (some n) h).length = h.length - n.natAbs) := by
  have hbase : get_history (some n) h = h.take (h.length - n.natAbs) := by
    unfold get_history
    dsimp only
    rw [if_neg (by omega)]
    congr 1
    omega
  refine ⟨hbase, ?_, ?_, ?_⟩
  · rw [hbase]
    exact List.take_append_drop _ h
  · intro hle
    rw [hbase]
    rw [show h.length - n.natAbs = 0 by omega]
    rfl
  · intro hlt
    rw [hbase]
    simp only [List.length_take]
    omega

/-- C10 witness: a three-entry ledger sliced with limit `-2` keeps only
the single newest entry. -/
theorem impl_get_history_negative_limit_witness :
    get_history (some (-2)) hist3 = hist3.take (hist3.length - (-2 : Int).natAbs) :=
  (impl_get_history_negative_limit hist3 (-2) (by decide)).1

/-- C3: the ledger invariant — inserting N ≤ 100 entries into an empty
ledger gives count N with the entries newest-first; inserting 105 gives
count 100, the ledger holds the newest 100, and (for distinct entries)
the 5 oldest are gone. -/
theorem spec_history_capacity (es : List HistoryEntry) :
    (es.length ≤ 100 →
      get_history_count (addEntries es []) = es.length ∧
      get_history none (addEntries es []) = es.reverse) ∧
    (es.length = 105 →
      get_history_count (addEntries es []) = 100 ∧
      addEntries es [] = (es.drop 5).reverse ∧
      (es.Nodup → ∀ e ∈ es.take 5, e ∉ addEntries es [])) := by
  have hbase : addEntries es [] = es.reverse.take max_history_size := by
    rw [addEntries_eq es [] (by simp [max_history_size])]
    simp
  constructor
  · intro hle
    have : es.reverse.take max_history_size = es.reverse := by
      apply List.take_of_length_le
      simpa [max_history_size] using hle
    rw [hbase, this]
    constructor
    · simp [get_history_count]
    · rfl
  · intro h105
    have hdrop : es.reverse.take max_history_size = (es.drop 5).reverse := by
      rw [List.take_reverse]
      congr 2
      rw [h105]
      rfl
    refine ⟨?_, ?_, ?_⟩
    · rw [hbase, hdrop]
      simp [get_history_count, h105]
    · rw [hbase, hdrop]
    · intro hnd e hmem
      rw [hbase, hdrop, List.mem_reverse]
      have hdisj : List.Disjoint (es.take 5) (es.drop 5) :=
        List.disjoint_take_drop hnd (Nat.le_refl 5)
      exact fun hc => hdisj hmem hc

/-- C3 witness: 105 distinct entries inserted into an empty ledger leave
a count of 100 with the oldest entry evicted. -/
theorem spec_history_capacity_witness :
    get_history_count (addEntries es105 []) = 100 ∧ entMk 0 ∉ addEntries es105 [] := by
  have hlen : es105.length = 105 := by simp [es105]
  have hinj : Function.Injective entMk := fun a b hab => congrArg HistoryEntry.timestamp hab
  have hnd : es105.Nodup := (List.nodup_range 105).map hinj
  obtain ⟨h1, -, h3⟩ := (spec_history_capacity es105).2 hlen
  exact ⟨h1, h3 hnd (entMk 0) (by decide)⟩

/-- C4: when the language capability raises, or none of the three
JSON-recovery steps produces a parse, the extractor does not raise and
returns exactly the degraded intent: roles `["executive"]`, industries
`["technology"]`, keywords the lowercase whitespace-split tokens of the
query, everything else empty or absent. -/
theorem spec_extract_fallback (query : String) (capability : Except String String)
    (pd pf pb : String → ParseOutcome)
    (hfail : (∃ err, capability = .error err) ∨
      (∃ content, capability = .ok content ∧
        (∀ d, pd content ≠ .parsed d) ∧ (∀ d, pf content ≠ .parsed d) ∧
        (∀ d, pb content ≠ .parsed d))) :
    extract_data_from_natural_language query capability pd pf pb = fallbackExtracted query ∧
    fallbackExtracted query =
      { target_roles := ["executive"], industries := ["technology"],
        region := none, company_size := none, intent := none,
        keywords := pySplitWs (pyLowerS query), seniority_level := none,
        department := none } := by
  refine ⟨?_, rfl⟩
  rcases hfail with ⟨err, hc⟩ | ⟨content, hc, h1, h2, h3⟩
  · rw [hc]
    rfl
  · unfold extract_data_from_natural_language
    rw [hc]
    dsimp only
    rcases hpd : pd content with _ | _ | d
    · dsimp only
      rcases hpf : pf content with _ | _ | d
      · dsimp only
        rcases hpb : pb content with _ | _ | d
        · rfl
        · rfl
        · exact absurd hpb (h3 d)
      · rfl
      · exact absurd hpf (h2 d)
    · dsimp only
      rcases hpf : pf content with _ | _ | d
      · dsimp only
        rcases hpb : pb content with _ | _ | d
        · rfl
        · rfl
        · exact absurd hpb (h3 d)
      · rfl
      · exact absurd hpf (h2 d)
    · exact absurd hpd (h1 d)

/-- C4 witness: the spec's own example query under a raising capability. -/
theorem spec_extract_fallback_witness :
    extract_data_from_natural_language "CTOs at fintech startups in India"
        (.error "api down") (fun _ => .noMatch) (fun _ => .noMatch) (fun _ => .noMatch) =
      fallbackExtracted "CTOs at fintech startups in India" ∧
    (fallbackExtracted "CTOs at fintech startups in India").keywords =
      ["ctos", "at", "fintech", "startups", "in", "india"] :=
  ⟨(spec_extract_fallback "CTOs at fintech startups in India" (.error "api down")
      (fun _ => .noMatch) (fun _ => .noMatch) (fun _ => .noMatch)
      (Or.inl ⟨"api down", rfl⟩)).1,
   by decide⟩

/-- C6: classification is total and deterministic — a trimmed input in the
email grammar is classified Email; one in the domain grammar that contains
a literal dot but is not in the email grammar is classified Domain; every
other input is classified NaturalLanguage. -/
theorem spec_classifier_cases (s : String) :
    (EmailGrammar (pyStrip s.data) → classify_input s = .email) ∧
    (¬ EmailGrammar (pyStrip s.data) → DomainGrammar (pyStrip s.data) → '.' ∈ s.data →
      classify_input s = .domain) ∧
    (¬ EmailGrammar (pyStrip s.data) → ¬ (DomainGrammar (pyStrip s.data) ∧ '.' ∈ s.data) →
      classify_input s = .natural_language) := by
  unfold classify_input
  refine ⟨?_, ?_, ?_⟩
  · intro hg
    rw [if_pos ((emailMatchB_iff _).mpr hg)]
  · intro hne hd hdot
    rw [if_neg (fun hb => hne ((emailMatchB_iff _).mp hb))]
    rw [if_pos (by
      rw [Bool.and_eq_true]
      exact ⟨(domainMatchB_iff _).mpr hd, decide_eq_true hdot⟩)]
  · intro hne hnd
    rw [if_neg (fun hb => hne ((emailMatchB_iff _).mp hb))]
    rw [if_neg (fun hb => by
      rw [Bool.and_eq_true] at hb
      exact hnd ⟨(domainMatchB_iff _).mp hb.1, of_decide_eq_true hb.2⟩)]

/-- C6 witness: a concrete member of the email grammar classified Email. -/
theorem spec_classifier_cases_witness :
    classify_input "john.doe@example.com" = .email :=
  (spec_classifier_cases "john.doe@example.com").1
    ⟨"john.doe".data, "example".data, "com".data,
      by decide, by decide, by decide, by decide, by decide, by decide, by decide⟩

/-- C5: the orchestrator never propagates an exception — an unanticipated
fault anywhere in the `try` body yields a well-formed failed outcome
carrying the fault's description and the elapsed time, and any failed
outcome carries an error string and the elapsed time. -/
theorem spec_orchestrator_absorbs (input_text : String) (use_ai_agent : Bool) (env : Env) :
    (∀ e, env.interrupt = some e →
      process_enrichment input_text use_ai_agent env =
        { success := false, data := none, error := some e, input_type := none,
          extracted_data := none, sources := [], processing_time := some env.elapsed }) ∧
    ((process_enrichment input_text use_ai_agent env).success = false →
      (process_enrichment input_text use_ai_agent env).error.isSome = true ∧
      (process_enrichment input_text use_ai_agent env).processing_time = some env.elapsed) := by
  have hfail : ∀ e, env.interrupt = some e →
      process_enrichment input_text use_ai_agent env = failedOutcome e env.elapsed := by
    intro e he
    unfold process_enrichment
    rw [he]
  constructor
  · intro e he
    rw [hfail e he]
    rfl
  · intro hs
    rcases he : env.interrupt with _ | e
    · have := (process_no_interrupt_shape input_text use_ai_agent env he).1
      rw [hs] at this
      exact absurd this (by decide)
    · rw [hfail e he]
      exact ⟨rfl, rfl⟩

/-- C5 witness: an injected fault becomes a failed outcome with the error
string and the elapsed time. -/
theorem spec_orchestrator_absorbs_witness :
    process_enrichment "anything" true envBoom =
      { success := false, data := none, error := some "boom", input_type := none,
        extracted_data := none, sources := [], processing_time := some envBoom.elapsed } :=
  (spec_orchestrator_absorbs "anything" true envBoom).1 "boom" rfl

/-- C2 counterexample: a record whose email field is present but empty is
dropped by the merge (`if email` is false for `""`), while the claim —
which only drops records lacking the field and keeps the first occurrence
of every seen value — would keep it. -/
theorem impl_merge_empty_email_cex :
    merge_results [[({ email := some "" } : RawRecord)]] = [] ∧
    merge_results [[({ email := some "" } : RawRecord)]] ≠ [({ email := some "" } : RawRecord)] := by
  constructor <;> decide

/-- C2 (amended): the merge keeps a record exactly the first time its
non-empty email value is seen (case-sensitive), skips later records with
an already-seen email, drops records whose email is missing or empty,
preserves first-seen order, and truncates to the first 50; in particular
80 uniquely-and-nonempty-emailed records merge to exactly the first 50. -/
theorem spec_merge_amended (all_results : List (List RawRecord)) :
    merge_results all_results = (keepFirstByEmail all_results.flatten []).take 50 ∧
    (merge_results all_results).length ≤ 50 ∧
    ((∀ r ∈ all_results.flatten, r.email ≠ none ∧ r.email ≠ some "") →
      (all_results.flatten.map (fun r => r.email)).Nodup →
      all_results.flatten.length = 80 →
      (merge_results all_results).length = 50 ∧
      merge_results all_results = all_results.flatten.take 50) := by
  refine ⟨merge_results_eq_keepFirst _, ?_, ?_⟩
  · rw [merge_results_eq_keepFirst]
    simp only [List.length_take]
    omega
  · intro h1 h2 h3
    have hk : keepFirstByEmail all_results.flatten [] = all_results.flatten :=
      keepFirstByEmail_all_kept _ _ h1 h2 (fun r _ e _ => by simp)
    rw [merge_results_eq_keepFirst, hk]
    refine ⟨?_, rfl⟩
    simp only [List.length_take, h3]
    rfl

set_option maxRecDepth 8000 in
/-- C2 witness: 80 distinct-email records merge to the first 50 of them. -/
theorem spec_merge_amended_witness :
    (merge_results [w80]).length = 50 ∧ merge_results [w80] = ([w80].flatten).take 50 :=
  (spec_merge_amended [w80]).2.2 (by decide) (by decide) (by decide)

/-! ## Helper lemmas: aggregate adapter -/

theorem otherStep_skip (env : Env) (d : ExtractedData) (acc : List RawRecord)
    (name : String) (src : EnrichmentSource) (hn : name ≠ "fullenrich") :
    otherStep env d acc (name, src) = acc := by
  unfold otherStep
  split
  · rfl
  · dsimp only
    cases env.srcInterrupt name with
    | some e => rfl
    | none =>
      dsimp only

/-- C8: every adapter absorbs its failures — a disabled source, a raised
HTTP call, or a non-success status each yield the empty list (for
fullenrich also a missing/empty key), and the aggregate remaining-sources
adapter equals the fullenrich contribution alone, so a fault injected
into any other source never blocks it (and a fullenrich fault yields
the empty aggregate rather than an exception). -/
theorem spec_adapters_absorb (env : Env) (d : ExtractedData) :
    (env.config.pdl.enabled = false → enrich_from_pdl env d = []) ∧
    (∀ err, env.pdlHttp (buildPdlParams env.config d) = .error err →
      enrich_from_pdl env d = []) ∧
    (∀ st rs, env.pdlHttp (buildPdlParams env.config d) = .ok (st, rs) → st ≠ 200 →
      enrich_from_pdl env d = []) ∧
    (env.config.fullenrich.enabled = false ∨ truthyOpt env.config.fullenrich.api_key = false →
      enrich_from_fullenrich env d = []) ∧
    (∀ err, env.feHttp (buildFePayload d) = .error err → enrich_from_fullenrich env d = []) ∧
    (∀ st rs, env.feHttp (buildFePayload d) = .ok (st, rs) → st ≠ 200 →
      enrich_from_fullenrich env d = []) ∧
    (enrich_from_other_sources env d =
      if env.config.fullenrich.enabled = true ∧ env.srcInterrupt "fullenrich" = none
      then enrich_from_fullenrich env d else []) := by
  refine ⟨?_, ?_, ?_, ?_, ?_, ?_, ?_⟩
  · intro h
    unfold enrich_from_pdl
    rw [if_pos h]
  · intro err herr
    unfold enrich_from_pdl
    split
    · rfl
    · rw [herr]
  · intro st rs hok hst
    unfold enrich_from_pdl
    split
    · rfl
    · rw [hok]
      dsimp only
      rw [if_neg hst]
  · intro h
    unfold enrich_from_fullenrich
    rw [if_pos h]
  · intro err herr
    unfold enrich_from_fullenrich
    split
    · rfl
    · rw [herr]
  · intro st rs hok hst
    unfold enrich_from_fullenrich
    split
    · rfl
    · rw [hok]
      dsimp only
      rw [if_pos hst]
  · unfold enrich_from_other_sources sourcesItems
    simp only [List.foldl_cons, List.foldl_nil]
    rw [otherStep_skip env d _ "pdl" env.config.pdl (by decide),
      otherStep_skip _ _ _ "freckle" env.config.freckle (by decide),
      otherStep_skip _ _ _ "telescope" env.config.telescope (by decide)]
    unfold otherStep
    cases hfe : env.config.fullenrich.enabled with
    | false =>
      dsimp only
      rw [if_pos (Or.inr rfl)]
      rw [if_neg (fun hc => Bool.noConfusion hc.1)]
    | true =>
      dsimp only
      rw [if_neg (fun hc => by
        rcases hc with hc | hc
        · exact absurd hc (by decide)
        · exact Bool.noConfusion hc)]
      cases hsi : env.srcInterrupt "fullenrich" with
      | some e =>
        dsimp only
        rw [if_neg (fun hc => Option.noConfusion hc.2)]
      | none =>
        dsimp only
        rw [if_pos rfl, if_pos (And.intro rfl rfl)]
        simp

/-- C8 witness: with nothing configured, the structured-data adapter
returns the empty list. -/
theorem spec_adapters_absorb_witness :
    enrich_from_pdl envNoCreds {} = [] :=
  (spec_adapters_absorb envNoCreds {}).1 rfl

/-- C1 counterexample: the orchestrator's direct path on
`"john.doe@example.com"` with AI mode off succeeds, but its payload is
the marker dict `{"input": ..., "type": "fallback"}` — it carries no
person record at all, so no person with the input email is returned. -/
theorem impl_direct_path_no_person_cex :
    (process_enrichment "john.doe@example.com" false envNoCreds).success = true ∧
    (process_enrichment "john.doe@example.com" false envNoCreds).data =
      some (.fallback "john.doe@example.com" "fallback") ∧
    ¬ ∃ p : RawRecord,
        dataPerson (process_enrichment "john.doe@example.com" false envNoCreds).data = some p ∧
        p.email = some "john.doe@example.com" := by
  refine ⟨by decide, by decide, ?_⟩
  rintro ⟨p, hp, -⟩
  rw [show dataPerson (process_enrichment "john.doe@example.com" false envNoCreds).data =
    none by decide] at hp
  exact Option.noConfusion hp

/-- C1 (amended): the direct path never hard-fails — with no fault
injected, whenever AI mode is off or the input classifies as email or
domain, the orchestrator returns success with the fallback marker payload
echoing the input (and no person record); separately, the structured-data
provider's email lookup used by the direct enrichment endpoint does
return, via its deterministic mock fallback when no client is configured,
a person whose email equals the input. -/
theorem spec_direct_path_amended (input_text : String) (use_ai_agent : Bool) (env : Env)
    (hint : env.interrupt = none)
    (hdir : use_ai_agent = false ∨ classify_input input_text = .email ∨
      classify_input input_text = .domain) :
    process_enrichment input_text use_ai_agent env =
      { success := true, data := some (.fallback input_text "fallback"), error := none,
        input_type := some (classify_input input_text), extracted_data := none,
        sources := ["fallback"], processing_time := some env.elapsed } ∧
    ∀ email : String, ∃ p : PdlPerson,
      (enrich_email none email).person = some p ∧ p.email = some email := by
  constructor
  · unfold process_enrichment
    rw [hint]
    dsimp only
    rw [if_pos hdir]
  · intro email
    exact ⟨_, rfl, rfl⟩

/-- C1 (amended) witness. -/
theorem spec_direct_path_amended_witness :
    process_enrichment "john.doe@example.com" false envNoCreds =
      { success := true, data := some (.fallback "john.doe@example.com" "fallback"),
        error := none, input_type := some (classify_input "john.doe@example.com"),
        extracted_data := none, sources := ["fallback"],
        processing_time := some envNoCreds.elapsed } ∧
    ∀ email : String, ∃ p : PdlPerson,
      (enrich_email none email).person = some p ∧ p.email = some email :=
  spec_direct_path_amended "john.doe@example.com" false envNoCreds rfl (Or.inl rfl)

/-- C7 counterexample: on the direct path for `"john.doe@example.com"`
the endpoint records exactly one entry, but that entry is the minimal
`{"input": ...}` marker with no company — it is not derived from the
direct-lookup person/company as the claim states: the direct lookup's
mock person for the same input carries the input as its email and comes
with a company record, while the stored entry carries no contact email
and no company at all. -/
theorem impl_history_marker_not_lookup_cex :
    ai_enrich "john.doe@example.com" false envNoCreds [] "id-1" 3 =
      .ok (process_enrichment "john.doe@example.com" false envNoCreds,
           [{ id := "id-1", input_data := "john.doe@example.com",
              person := some (.inputMarker "john.doe@example.com"), company := none,
              timestamp := 3 }]) ∧
    (enrich_email none "john.doe@example.com").person.bind PdlPerson.email =
      some "john.doe@example.com" ∧
    storedHeadContactEmail (ai_enrich "john.doe@example.com" false envNoCreds [] "id-1" 3) =
      none ∧
    (enrich_email none "john.doe@example.com").company ≠ none :=
  ⟨rfl, rfl, rfl, by decide⟩

/-- C7 (amended): on every success outcome of the orchestrator (reached
through the endpoint, i.e. AI mode off or key present), exactly one
history item is recorded at the ledger head before the outcome is
returned; the item is derived from the outcome's payload by
`derivePerson`: the contact dict built from the first merged record
(company dict only when that record's `company` field is truthy) when the
AI path produced results, empty person/company slots when it produced
none, and the minimal `{"input": ...}` marker — not the direct-lookup
person/company — on the direct path. -/
theorem spec_success_records_history (input_text : String) (use_ai_agent : Bool) (env : Env)
    (ledger : List HistoryEntry) (history_id : String) (now : Nat)
    (hkey : use_ai_agent = true → env.openaiKeyPresent = true)
    (hs : (process_enrichment input_text use_ai_agent env).success = true) :
    (∀ inp typ, derivePerson (.fallback inp typ) = (some (.inputMarker inp), none)) ∧
    (∀ q ex tot su, derivePerson (.aiResult q ex [] tot su) = (none, none)) ∧
    (∀ q ex r rs tot su, derivePerson (.aiResult q ex (r :: rs) tot su) =
      (some (.contact (pyOr r.full_name r.name) (pyOr r.job_title r.title)
          r.email r.linkedin_profile r.company r.location),
       if truthyOpt r.company then
         some { name := r.company, domain := r.domain, industry := r.industry,
                size := r.company_size, location := r.location }
       else none)) ∧
    ∃ d, (process_enrichment input_text use_ai_agent env).data = some d ∧
      ai_enrich input_text use_ai_agent env ledger history_id now =
        .ok (process_enrichment input_text use_ai_agent env,
             add_to_history history_id input_text (derivePerson d).1 (derivePerson d).2
               now ledger) := by
  refine ⟨fun _ _ => rfl, fun _ _ _ _ => rfl, fun _ _ _ _ _ _ => rfl, ?_⟩
  have hint : env.interrupt = none := by
    rcases he : env.interrupt with _ | e
    · rfl
    · exfalso
      have : process_enrichment input_text use_ai_agent env = failedOutcome e env.elapsed := by
        unfold process_enrichment
        rw [he]
      rw [this] at hs
      exact Bool.noConfusion hs
  obtain ⟨-, d, hd⟩ := process_no_interrupt_shape input_text use_ai_agent env hint
  refine ⟨d, hd, ?_⟩
  unfold ai_enrich
  rw [if_neg (fun hc => by
    have := hkey hc.1
    rw [this] at hc
    exact Bool.noConfusion hc.2)]
  dsimp only
  rw [if_pos ⟨hs, by rw [hd]; exact fun hc => Option.noConfusion hc⟩]
  rw [hd]

/-- C7 (amended) witness: the direct path records exactly one entry, the
input-marker one. -/
theorem spec_success_records_history_witness :
    (∀ inp typ, derivePerson (.fallback inp typ) = (some (.inputMarker inp), none)) ∧
    (∀ q ex tot su, derivePerson (.aiResult q ex [] tot su) = (none, none)) ∧
    (∀ q ex r rs tot su, derivePerson (.aiResult q ex (r :: rs) tot su) =
      (some (.contact (pyOr r.full_name r.name) (pyOr r.job_title r.title)
          r.email r.linkedin_profile r.company r.location),
       if truthyOpt r.company then
         some { name := r.company, domain := r.domain, industry := r.industry,
                size := r.company_size, location := r.location }
       else none)) ∧
    ∃ d, (process_enrichment "john.doe@example.com" false envNoCreds).data = some d ∧
      ai_enrich "john.doe@example.com" false envNoCreds [] "id-1" 3 =
        .ok (process_enrichment "john.doe@example.com" false envNoCreds,
             add_to_history "id-1" "john.doe@example.com" (derivePerson d).1 (derivePerson d).2
               3 []) :=
  spec_success_records_history "john.doe@example.com" false envNoCreds [] "id-1" 3
    (fun h => Bool.noConfusion h) (by decide)
